import Mathlib

/-!
Verification development for the MidT2M lyric-video generator
(`src/MidT2M.py`).  The Python core is shallowly embedded here:

* Python `str` values are modelled as `List Char` (`Str`), with structural
  re-implementations of the string primitives the code uses
  (`strip`, `split('|')`, `startswith`, slicing);
* Python `float` arithmetic is modelled exactly over `ℚ` (the code's
  ratio/time computations are finite arithmetic expressions, embedded as
  exact rationals);
* Python `int(x)` truncation is `py_int : ℚ → ℤ` (truncation toward zero);
* Python's stable `list.sort` is modelled by `List.insertionSort`, which is
  also stable;
* fallible paths are modelled with `Option`.

Each definition is annotated with the source function and line numbers it
embeds.  Text-measuring primitives backed by the font library
(`_get_text_width` / PIL metrics) are kept as an abstract measurement
parameter: the layout claims proved here hold for every measurement
function, and concrete counterexamples instantiate it explicitly.
-/

namespace MidT2M

/-- Python strings, modelled as their list of characters. -/
abbrev Str := List Char

/-- Model of Python `str.strip()` (whitespace strip at both ends),
used in `parse_dynamic_segment` (src line 188). -/
def py_strip (s : Str) : Str :=
  ((s.dropWhile Char.isWhitespace).reverse.dropWhile Char.isWhitespace).reverse

/-- Model of Python `str.split(sep)` for a one-character separator
(src line 200): `"".split` yields `[""]`, and `n` separators yield
`n+1` (possibly empty) fields. -/
def py_split (sep : Char) : Str → List Str
  | [] => [[]]
  | c :: cs =>
    let r := py_split sep cs
    if c = sep then [] :: r
    else
      match r with
      | h :: t => (c :: h) :: t
      | [] => [[c]]

/-- Model of Python `str.startswith` (src lines 190, 212, 237). -/
def py_startswith (pat : Str) (s : Str) : Bool :=
  match pat, s with
  | [], _ => true
  | _ :: _, [] => false
  | p :: ps, c :: cs => p == c && py_startswith ps cs

/-- Model of Python `str.endswith` (src line 190). -/
def py_endswith (pat : Str) (s : Str) : Bool :=
  py_startswith pat.reverse s.reverse

/-- Python slice `s[a:-b]` for a string of length ≥ a + b
(src line 191 uses `stripped[3:-3]`). -/
def py_slice_drop (a b : ℕ) (s : Str) : Str :=
  (s.drop a).take (s.length - a - b)

/-- The three-backquote literal marker of the segment grammar
(src line 190), built from character code 96. -/
def backquote3 : Str := List.replicate 3 (Char.ofNat 96)

/-- The `---` placeholder/progressive marker (src lines 196, 212, 237). -/
def dashes3 : Str := ['-', '-', '-']

/-- One timed sub-segment: the Python tuple
`(text, start_ratio, end_ratio)` built by `parse_dynamic_segment`
(src lines 193, 198, 216, 223, 225, 227). -/
structure Sub where
  text : Str
  rStart : ℚ
  rEnd : ℚ
deriving DecidableEq, Repr

/-- Result record of `parse_dynamic_segment` (the `output` dict,
src line 187). -/
structure ParsedSeg where
  original_segment_text : Str
  is_dynamic : Bool
  sub_segments_timed : List Sub
  text_for_layout : Str
deriving DecidableEq, Repr

/-- Raw sub-segments contributed by slot `i` of `n` sequential slots
(the body of the `for i, part_text_iter in enumerate(parts)` loop,
src lines 207–227): a slot is either a progressive reveal `---xyz`,
the bare placeholder `---`, or static text. -/
def slot_subs (n i : ℕ) (part : Str) : List Sub :=
  let slot_duration : ℚ := 1 / n
  let part_start : ℚ := i * slot_duration
  let part_end : ℚ := (i + 1) * slot_duration
  if py_startswith dashes3 part ∧ 3 < part.length then
    let content := part.drop 3
    let steps := content.length
    if steps = 0 then [⟨[], part_start, part_end⟩]
    else
      let step_duration : ℚ := (part_end - part_start) / steps
      (List.range steps).map (fun j =>
        ⟨content.take (j + 1),
         part_start + j * step_duration,
         part_start + (j + 1) * step_duration⟩)
  else if part = dashes3 then [⟨[], part_start, part_end⟩]
  else [⟨part, part_start, part_end⟩]

/-- First normalization pass of `parse_dynamic_segment`
(src lines 260–274): snap each start forward to the running end,
force the final end to `1.0`, and force every end to be at least
its start. The `ℚ` argument is `current_end_time`. -/
def norm_pass1 : ℚ → List Sub → List Sub
  | _, [] => []
  | current_end, ⟨t, s, e⟩ :: rest =>
    let actual_start := max current_end s
    let actual_end0 := if rest.isEmpty then (1 : ℚ) else e
    let actual_end := max actual_start actual_end0
    ⟨t, actual_start, actual_end⟩ :: norm_pass1 actual_end rest

/-- Second normalization step (src lines 277–279): force the first
sub-segment's start to `0.0`. -/
def set_first_zero : List Sub → List Sub
  | [] => []
  | ⟨t, _, e⟩ :: rest => ⟨t, 0, e⟩ :: rest

/-- Body of the contiguity loop (src lines 282–286): `prev` is the
already-fixed predecessor `output['sub_segments_timed'][k_fix_cont]`;
a successor whose start is before `prev`'s end is snapped up to it,
and the updated successor becomes the next `prev`. -/
def norm_pass3_go (prev : Sub) : List Sub → List Sub
  | [] => []
  | b :: rest =>
    let b' := if b.rStart < prev.rEnd then Sub.mk b.text prev.rEnd (max prev.rEnd b.rEnd) else b
    b' :: norm_pass3_go b' rest

/-- Third normalization step (src lines 282–286): make consecutive
sub-segments contiguous by snapping a start that is before its
predecessor's end up to that end (updates propagate left to right,
as in the Python in-place loop). -/
def norm_pass3 : List Sub → List Sub
  | [] => []
  | a :: rest => a :: norm_pass3_go a rest

/-- Fourth normalization step (src lines 288–289): force the last
sub-segment's end to `1.0`. -/
def set_last_one : List Sub → List Sub
  | [] => []
  | [⟨t, s, _⟩] => [⟨t, s, 1⟩]
  | a :: b :: rest => a :: set_last_one (b :: rest)

/-- The whole normalization block of `parse_dynamic_segment`
(src lines 258–289). -/
def normalize_timings (l : List Sub) : List Sub :=
  if l.isEmpty then [] else set_last_one (norm_pass3 (set_first_zero (norm_pass1 0 l)))

/-- Embedding of `parse_dynamic_segment` (src lines 186–291): literal
triple-backquote form, bare `---` placeholder, sequential `|` list,
single progressive `---xyz`, or static text, followed by the
normalization block.  The literal and bare-`---` branches return
before normalization, exactly as the Python code does. -/
def parse_dynamic_segment (raw : Str) : ParsedSeg :=
  let stripped := py_strip raw
  if py_startswith backquote3 stripped ∧ py_endswith backquote3 stripped ∧
      6 ≤ stripped.length then
    let literal_text := py_slice_drop 3 3 stripped
    ⟨raw, false, [⟨literal_text, 0, 1⟩], literal_text⟩
  else if stripped = dashes3 then
    ⟨raw, true, [⟨[], 0, 1⟩], []⟩
  else
    let parts := py_split '|' stripped
    if 1 < parts.length then
      let subs := (List.range parts.length).flatMap
        (fun i => slot_subs parts.length i (parts.getD i []))
      ⟨raw, true, normalize_timings subs,
        (subs.getLast?.map Sub.text).getD []⟩
    else if py_startswith dashes3 stripped ∧ 3 < stripped.length then
      let content := stripped.drop 3
      let steps := content.length
      if steps = 0 then ⟨raw, true, normalize_timings [⟨[], 0, 1⟩], []⟩
      else
        let step_duration : ℚ := 1 / steps
        let subs := (List.range steps).map (fun j =>
          Sub.mk (content.take (j + 1)) (j * step_duration) ((j + 1) * step_duration))
        ⟨raw, true, normalize_timings subs,
          (subs.getLast?.map Sub.text).getD []⟩
    else
      ⟨raw, false, normalize_timings [⟨stripped, 0, 1⟩], stripped⟩

lemma parse_progressive_eq (raw : Str)
    (h1 : ¬(py_startswith backquote3 (py_strip raw) = true ∧
        py_endswith backquote3 (py_strip raw) = true ∧ 6 ≤ (py_strip raw).length))
    (h2 : py_strip raw ≠ dashes3)
    (h3 : ¬ 1 < (py_split '|' (py_strip raw)).length)
    (h4 : py_startswith dashes3 (py_strip raw) = true ∧ 3 < (py_strip raw).length)
    (h5 : ¬ ((py_strip raw).drop 3).length = 0) :
    parse_dynamic_segment raw =
      ⟨raw, true,
        normalize_timings ((List.range ((py_strip raw).drop 3).length).map (fun j =>
          Sub.mk (((py_strip raw).drop 3).take (j + 1))
            (j * ((1 : ℚ) / ((py_strip raw).drop 3).length))
            ((j + 1) * ((1 : ℚ) / ((py_strip raw).drop 3).length)))),
        ((((List.range ((py_strip raw).drop 3).length).map (fun j =>
          Sub.mk (((py_strip raw).drop 3).take (j + 1))
            (j * ((1 : ℚ) / ((py_strip raw).drop 3).length))
            ((j + 1) * ((1 : ℚ) / ((py_strip raw).drop 3).length)))).getLast?.map
              Sub.text).getD [])⟩ := by
  simp only [parse_dynamic_segment]
  rw [if_neg h1, if_neg h2, if_neg h3, if_pos h4, if_neg h5]

lemma parse_sequential_eq (raw : Str)
    (h1 : ¬(py_startswith backquote3 (py_strip raw) = true ∧
        py_endswith backquote3 (py_strip raw) = true ∧ 6 ≤ (py_strip raw).length))
    (h2 : py_strip raw ≠ dashes3)
    (h3 : 1 < (py_split '|' (py_strip raw)).length) :
    parse_dynamic_segment raw =
      ⟨raw, true,
        normalize_timings ((List.range (py_split '|' (py_strip raw)).length).flatMap
          (fun i => slot_subs (py_split '|' (py_strip raw)).length i
            ((py_split '|' (py_strip raw)).getD i []))),
        ((((List.range (py_split '|' (py_strip raw)).length).flatMap
          (fun i => slot_subs (py_split '|' (py_strip raw)).length i
            ((py_split '|' (py_strip raw)).getD i []))).getLast?.map
              Sub.text).getD [])⟩ := by
  simp only [parse_dynamic_segment]
  rw [if_neg h1, if_neg h2, if_pos h3]

/-! Properties of the normalization block, leading to claim C2. -/

/-- The order relation the normalization establishes between
consecutive sub-segments: the next starts no earlier than the
previous ends. -/
def Contig (a b : Sub) : Prop := a.rEnd ≤ b.rStart

lemma norm_pass1_length (ce : ℚ) (l : List Sub) :
    (norm_pass1 ce l).length = l.length := by
  induction l generalizing ce with
  | nil => rfl
  | cons x r ih =>
    obtain ⟨t, s, e⟩ := x
    simp only [norm_pass1, List.length_cons, ih]

lemma norm_pass1_mem (l : List Sub) (ce : ℚ) :
    ∀ x ∈ norm_pass1 ce l, ce ≤ x.rStart ∧ x.rStart ≤ x.rEnd := by
  induction l generalizing ce with
  | nil => intro x hx; simp [norm_pass1] at hx
  | cons p r ih =>
    obtain ⟨t, s, e⟩ := p
    intro x hx
    rw [norm_pass1] at hx
    rcases List.mem_cons.mp hx with h | h
    · subst h
      exact ⟨le_max_left _ _, le_max_left _ _⟩
    · obtain ⟨h1, h2⟩ := ih _ x h
      refine ⟨le_trans ?_ h1, h2⟩
      exact le_trans (le_max_left ce s) (le_max_left _ _)

lemma norm_pass1_chain (l : List Sub) (ce : ℚ) :
    List.Chain' Contig (norm_pass1 ce l) := by
  induction l generalizing ce with
  | nil => simp [norm_pass1]
  | cons p r ih =>
    obtain ⟨t, s, e⟩ := p
    rw [norm_pass1, List.chain'_cons']
    refine ⟨?_, ih _⟩
    intro y hy
    have hmem : y ∈ norm_pass1 (max (max ce s) (if r.isEmpty then (1:ℚ) else e)) r :=
      List.mem_of_mem_head? hy
    exact (norm_pass1_mem r _ y hmem).1

lemma norm_pass1_le_one (l : List Sub) (ce : ℚ) (hce : ce ≤ 1)
    (hb : ∀ x ∈ l, x.rStart ≤ 1 ∧ x.rEnd ≤ 1) :
    ∀ x ∈ norm_pass1 ce l, x.rStart ≤ 1 ∧ x.rEnd ≤ 1 := by
  induction l generalizing ce with
  | nil => intro x hx; simp [norm_pass1] at hx
  | cons p r ih =>
    obtain ⟨t, s, e⟩ := p
    have hs : s ≤ 1 := (hb ⟨t, s, e⟩ (List.mem_cons_self _ _)).1
    have he : e ≤ 1 := (hb ⟨t, s, e⟩ (List.mem_cons_self _ _)).2
    have hstart : max ce s ≤ 1 := max_le hce hs
    have hend : max (max ce s) (if r.isEmpty then (1:ℚ) else e) ≤ 1 := by
      refine max_le hstart ?_
      split <;> simp [he]
    intro x hx
    rw [norm_pass1] at hx
    rcases List.mem_cons.mp hx with h | h
    · subst h; exact ⟨hstart, hend⟩
    · exact ih _ hend (fun z hz => hb z (List.mem_cons_of_mem _ hz)) x h

lemma norm_pass3_go_length (l : List Sub) (prev : Sub) :
    (norm_pass3_go prev l).length = l.length := by
  induction l generalizing prev with
  | nil => rfl
  | cons b r ih => rw [norm_pass3_go]; simp only [List.length_cons, ih]

lemma norm_pass3_length (l : List Sub) : (norm_pass3 l).length = l.length := by
  cases l with
  | nil => rfl
  | cons a r => rw [norm_pass3]; simp only [List.length_cons, norm_pass3_go_length]

lemma norm_pass3_go_chain (l : List Sub) (prev : Sub) :
    List.Chain' Contig (prev :: norm_pass3_go prev l) := by
  induction l generalizing prev with
  | nil => simp [norm_pass3_go]
  | cons b r ih =>
    rw [norm_pass3_go]
    by_cases hc : b.rStart < prev.rEnd
    · rw [if_pos hc, List.chain'_cons]
      exact ⟨le_refl _, ih _⟩
    · rw [if_neg hc, List.chain'_cons]
      exact ⟨le_of_not_lt hc, ih _⟩

lemma norm_pass3_chain (l : List Sub) : List.Chain' Contig (norm_pass3 l) := by
  cases l with
  | nil => simp [norm_pass3]
  | cons a r =>
    rw [norm_pass3]
    exact norm_pass3_go_chain r a

lemma norm_pass3_go_se (l : List Sub) (prev : Sub)
    (h : ∀ x ∈ l, x.rStart ≤ x.rEnd) :
    ∀ x ∈ norm_pass3_go prev l, x.rStart ≤ x.rEnd := by
  induction l generalizing prev with
  | nil => intro x hx; simp [norm_pass3_go] at hx
  | cons b r ih =>
    intro x hx
    rw [norm_pass3_go] at hx
    by_cases hc : b.rStart < prev.rEnd
    · rw [if_pos hc] at hx
      rcases List.mem_cons.mp hx with hh | hh
      · subst hh; exact le_max_left _ _
      · exact ih _ (fun z hz => h z (List.mem_cons_of_mem _ hz)) x hh
    · rw [if_neg hc] at hx
      rcases List.mem_cons.mp hx with hh | hh
      · rw [hh]; exact h b (List.mem_cons_self _ _)
      · exact ih _ (fun z hz => h z (List.mem_cons_of_mem _ hz)) x hh

lemma norm_pass3_go_le_one (l : List Sub) (prev : Sub) (hp : prev.rEnd ≤ 1)
    (h : ∀ x ∈ l, x.rStart ≤ 1 ∧ x.rEnd ≤ 1) :
    ∀ x ∈ norm_pass3_go prev l, x.rStart ≤ 1 ∧ x.rEnd ≤ 1 := by
  induction l generalizing prev with
  | nil => intro x hx; simp [norm_pass3_go] at hx
  | cons b r ih =>
    have hb1 : b.rStart ≤ 1 := (h b (List.mem_cons_self _ _)).1
    have hb2 : b.rEnd ≤ 1 := (h b (List.mem_cons_self _ _)).2
    intro x hx
    rw [norm_pass3_go] at hx
    by_cases hc : b.rStart < prev.rEnd
    · rw [if_pos hc] at hx
      rcases List.mem_cons.mp hx with hh | hh
      · subst hh; exact ⟨hp, max_le hp hb2⟩
      · exact ih _ (max_le hp hb2) (fun z hz => h z (List.mem_cons_of_mem _ hz)) x hh
    · rw [if_neg hc] at hx
      rcases List.mem_cons.mp hx with hh | hh
      · subst hh; exact ⟨hb1, hb2⟩
      · exact ih _ hb2 (fun z hz => h z (List.mem_cons_of_mem _ hz)) x hh

lemma norm_pass3_se (l : List Sub) (h : ∀ x ∈ l, x.rStart ≤ x.rEnd) :
    ∀ x ∈ norm_pass3 l, x.rStart ≤ x.rEnd := by
  cases l with
  | nil => intro x hx; simp [norm_pass3] at hx
  | cons a r =>
    intro x hx
    rw [norm_pass3] at hx
    rcases List.mem_cons.mp hx with hh | hh
    · rw [hh]; exact h a (List.mem_cons_self _ _)
    · exact norm_pass3_go_se r a (fun z hz => h z (List.mem_cons_of_mem _ hz)) x hh

lemma norm_pass3_le_one (l : List Sub) (h : ∀ x ∈ l, x.rStart ≤ 1 ∧ x.rEnd ≤ 1) :
    ∀ x ∈ norm_pass3 l, x.rStart ≤ 1 ∧ x.rEnd ≤ 1 := by
  cases l with
  | nil => intro x hx; simp [norm_pass3] at hx
  | cons a r =>
    intro x hx
    rw [norm_pass3] at hx
    rcases List.mem_cons.mp hx with hh | hh
    · rw [hh]; exact h a (List.mem_cons_self _ _)
    · exact norm_pass3_go_le_one r a (h a (List.mem_cons_self _ _)).2
        (fun z hz => h z (List.mem_cons_of_mem _ hz)) x hh

lemma norm_pass3_head? (l : List Sub) : (norm_pass3 l).head? = l.head? := by
  cases l <;> rfl

lemma set_last_one_length (l : List Sub) : (set_last_one l).length = l.length := by
  induction l with
  | nil => rfl
  | cons a r ih =>
    cases r with
    | nil => obtain ⟨t, s, e⟩ := a; rfl
    | cons b r' =>
      rw [set_last_one]
      simp only [List.length_cons] at ih ⊢
      rw [ih]

lemma set_last_one_head?_rStart (l : List Sub) :
    (set_last_one l).head?.map Sub.rStart = l.head?.map Sub.rStart := by
  cases l with
  | nil => rfl
  | cons a r =>
    cases r with
    | nil => obtain ⟨t, s, e⟩ := a; rfl
    | cons b r' => rw [set_last_one]; rfl

lemma set_last_one_getLast?_rEnd (l : List Sub) (h : l ≠ []) :
    (set_last_one l).getLast?.map Sub.rEnd = some 1 := by
  induction l with
  | nil => exact absurd rfl h
  | cons a r ih =>
    cases r with
    | nil => obtain ⟨t, s, e⟩ := a; rfl
    | cons b r' =>
      have h' := ih (by simp)
      have hne : set_last_one (b :: r') ≠ [] := by
        intro hc
        have hl := set_last_one_length (b :: r')
        rw [hc] at hl
        simp at hl
      cases hm : set_last_one (b :: r') with
      | nil => exact absurd hm hne
      | cons m0 ms =>
        rw [hm] at h'
        rw [set_last_one, hm, List.getLast?_cons_cons]
        exact h'

lemma set_last_one_se (l : List Sub) (h : ∀ x ∈ l, x.rStart ≤ x.rEnd)
    (h1 : ∀ x ∈ l, x.rStart ≤ 1) :
    ∀ x ∈ set_last_one l, x.rStart ≤ x.rEnd := by
  induction l with
  | nil => intro x hx; simp [set_last_one] at hx
  | cons a r ih =>
    cases r with
    | nil =>
      obtain ⟨t, s, e⟩ := a
      intro y hy
      rcases List.mem_singleton.mp hy with rfl
      exact h1 ⟨t, s, e⟩ (List.mem_cons_self _ _)
    | cons b r' =>
      intro y hy
      rw [set_last_one] at hy
      rcases List.mem_cons.mp hy with hh | hh
      · rw [hh]; exact h a (List.mem_cons_self _ _)
      · exact ih (fun z hz => h z (List.mem_cons_of_mem _ hz))
          (fun z hz => h1 z (List.mem_cons_of_mem _ hz)) y hh

lemma set_last_one_chain (l : List Sub) (h : List.Chain' Contig l) :
    List.Chain' Contig (set_last_one l) := by
  induction l with
  | nil => simp [set_last_one]
  | cons a r ih =>
    cases r with
    | nil => obtain ⟨t, s, e⟩ := a; simp [set_last_one]
    | cons b r' =>
      rw [List.chain'_cons'] at h
      obtain ⟨hab, hrest⟩ := h
      have hchain := ih hrest
      rw [set_last_one, List.chain'_cons']
      refine ⟨?_, hchain⟩
      intro y hy
      have hmap := set_last_one_head?_rStart (b :: r')
      rw [hy] at hmap
      have hb : y.rStart = b.rStart := by
        simpa using hmap
      have hcb := hab b (by simp)
      unfold Contig at hcb ⊢
      rw [hb]
      exact hcb

lemma normalize_timings_spec (l : List Sub) (hne : l ≠ [])
    (hb : ∀ x ∈ l, x.rStart ≤ 1 ∧ x.rEnd ≤ 1) :
    normalize_timings l ≠ [] ∧
    (normalize_timings l).head?.map Sub.rStart = some 0 ∧
    (normalize_timings l).getLast?.map Sub.rEnd = some 1 ∧
    (∀ x ∈ normalize_timings l, x.rStart ≤ x.rEnd) ∧
    List.Chain' Contig (normalize_timings l) := by
  have hle : l.isEmpty = false := by
    cases l with
    | nil => exact absurd rfl hne
    | cons a r => rfl
  rw [normalize_timings, hle]
  simp only [Bool.false_eq_true, if_false]
  have h1mem := norm_pass1_mem l 0
  have h1chain := norm_pass1_chain l 0
  have h1bound := norm_pass1_le_one l 0 (by norm_num) hb
  have h1len := norm_pass1_length 0 l
  cases hc1 : norm_pass1 0 l with
  | nil =>
    rw [hc1] at h1len
    cases l with
    | nil => exact absurd rfl hne
    | cons a r => simp at h1len
  | cons p1 t1 =>
    rw [hc1] at h1mem h1chain h1bound
    obtain ⟨tp, sp, ep⟩ := p1
    have hz : set_first_zero (⟨tp, sp, ep⟩ :: t1) = ⟨tp, 0, ep⟩ :: t1 := rfl
    have hzmem : ∀ x ∈ (Sub.mk tp 0 ep) :: t1, x.rStart ≤ x.rEnd := by
      intro y hy
      rcases List.mem_cons.mp hy with hh | hh
      · subst hh
        have h0 := h1mem ⟨tp, sp, ep⟩ (List.mem_cons_self _ _)
        simp only [Sub.rStart, Sub.rEnd] at h0 ⊢
        linarith [h0.1, h0.2]
      · exact (h1mem y (List.mem_cons_of_mem _ hh)).2
    have hzbound : ∀ x ∈ (Sub.mk tp 0 ep) :: t1, x.rStart ≤ 1 ∧ x.rEnd ≤ 1 := by
      intro y hy
      rcases List.mem_cons.mp hy with hh | hh
      · subst hh
        have h0 := h1bound ⟨tp, sp, ep⟩ (List.mem_cons_self _ _)
        exact ⟨by norm_num, h0.2⟩
      · exact h1bound y (List.mem_cons_of_mem _ hh)
    have hzchain : List.Chain' Contig ((Sub.mk tp 0 ep) :: t1) := by
      rw [List.chain'_cons'] at h1chain ⊢
      exact ⟨fun y hy => h1chain.1 y hy, h1chain.2⟩
    have h3chain := norm_pass3_chain ((Sub.mk tp 0 ep) :: t1)
    have h3se := norm_pass3_se _ hzmem
    have h3bound := norm_pass3_le_one _ hzbound
    have h3head : (norm_pass3 ((Sub.mk tp 0 ep) :: t1)).head? = some ⟨tp, 0, ep⟩ := by
      rw [norm_pass3_head?]; rfl
    have h3len := norm_pass3_length ((Sub.mk tp 0 ep) :: t1)
    have h3ne : norm_pass3 ((Sub.mk tp 0 ep) :: t1) ≠ [] := by
      intro hcc
      rw [hcc] at h3len
      simp at h3len
    rw [hz]
    refine ⟨?_, ?_, ?_, ?_, ?_⟩
    · intro hcc
      have hsl := set_last_one_length (norm_pass3 ((Sub.mk tp 0 ep) :: t1))
      rw [hcc, h3len] at hsl
      simp at hsl
    · rw [set_last_one_head?_rStart, h3head]
      rfl
    · exact set_last_one_getLast?_rEnd _ h3ne
    · exact set_last_one_se _ h3se (fun z hz' => (h3bound z hz').1)
    · exact set_last_one_chain _ h3chain

lemma slot_subs_ne_nil (n i : ℕ) (part : Str) : slot_subs n i part ≠ [] := by
  simp only [slot_subs]
  split_ifs with h1 h2 h3
  · simp
  · simp only [ne_eq, List.map_eq_nil_iff, List.range_eq_nil]
    exact h2
  · simp
  · simp

lemma frac_le_one {i n : ℕ} (h : i ≤ n) (hn : 0 < n) : (i : ℚ) * (1 / n) ≤ 1 := by
  rw [mul_one_div, div_le_one (by exact_mod_cast hn)]
  exact_mod_cast h

lemma step_partial_le {ps pe : ℚ} {steps k : ℕ} (hse : ps ≤ pe) (hs : steps ≠ 0)
    (hk : k ≤ steps) :
    ps + k * ((pe - ps) / steps) ≤ pe := by
  have hsq : (steps : ℚ) ≠ 0 := Nat.cast_ne_zero.mpr hs
  have hnn : (0 : ℚ) ≤ (pe - ps) / steps := by
    apply div_nonneg (by linarith)
    positivity
  have h1 : (k : ℚ) * ((pe - ps) / steps) ≤ (steps : ℚ) * ((pe - ps) / steps) := by
    apply mul_le_mul_of_nonneg_right _ hnn
    exact_mod_cast hk
  have h2 : (steps : ℚ) * ((pe - ps) / steps) = pe - ps := by
    field_simp
  linarith

lemma slot_subs_bounds (n i : ℕ) (hi : i < n) (part : Str) :
    ∀ x ∈ slot_subs n i part, x.rStart ≤ 1 ∧ x.rEnd ≤ 1 := by
  have hn : 0 < n := Nat.lt_of_le_of_lt (Nat.zero_le i) hi
  have hps : (i : ℚ) * (1 / n) ≤ 1 := frac_le_one hi.le hn
  have hpe : ((i : ℚ) + 1) * (1 / n) ≤ 1 := by
    have := frac_le_one (Nat.succ_le_of_lt hi) hn
    push_cast at this
    linarith
  have hsle : (i : ℚ) * (1 / n) ≤ ((i : ℚ) + 1) * (1 / n) := by
    have h0 : (0 : ℚ) ≤ 1 / n := by positivity
    nlinarith
  simp only [slot_subs]
  split_ifs with h1 h2 h3
  · intro x hx
    rcases List.mem_singleton.mp hx with rfl
    exact ⟨hps, hpe⟩
  · intro x hx
    rw [List.mem_map] at hx
    obtain ⟨j, hj, rfl⟩ := hx
    rw [List.mem_range] at hj
    constructor
    · exact le_trans (step_partial_le hsle h2 hj.le) hpe
    · have : ((j : ℚ) + 1) * ((((i : ℚ) + 1) * (1 / n) - (i : ℚ) * (1 / n)) / (part.drop 3).length)
          = ((j + 1 : ℕ) : ℚ) * ((((i : ℚ) + 1) * (1 / n) - (i : ℚ) * (1 / n)) / (part.drop 3).length) := by
        push_cast; ring
      simp only [Sub.rEnd]
      rw [this]
      exact le_trans (step_partial_le hsle h2 (Nat.succ_le_of_lt hj)) hpe
  · intro x hx
    rcases List.mem_singleton.mp hx with rfl
    exact ⟨hps, hpe⟩
  · intro x hx
    rcases List.mem_singleton.mp hx with rfl
    exact ⟨hps, hpe⟩

/-- C2: for every segment string, the sub-segment list returned by
`parse_dynamic_segment` is nonempty, its first `start_ratio` is `0`,
its last `end_ratio` is `1`, every sub-segment's start is at most its
end, and consecutive sub-segments are contiguous (each entry's start
is at least the previous entry's end, so starts never decrease). -/
theorem parse_dynamic_segment_timing_invariant (raw : Str) :
    (parse_dynamic_segment raw).sub_segments_timed ≠ [] ∧
    ((parse_dynamic_segment raw).sub_segments_timed.head?.map Sub.rStart = some 0) ∧
    ((parse_dynamic_segment raw).sub_segments_timed.getLast?.map Sub.rEnd = some 1) ∧
    (∀ x ∈ (parse_dynamic_segment raw).sub_segments_timed, x.rStart ≤ x.rEnd) ∧
    List.Chain' Contig (parse_dynamic_segment raw).sub_segments_timed := by
  simp only [parse_dynamic_segment]
  split_ifs with h1 h2 h3 h4 h5
  all_goals dsimp only
  · refine ⟨by simp, by simp, by simp, ?_, by simp⟩
    intro x hx
    rcases List.mem_singleton.mp hx with rfl
    norm_num
  · refine ⟨by simp, by simp, by simp, ?_, by simp⟩
    intro x hx
    rcases List.mem_singleton.mp hx with rfl
    norm_num
  · have hn : 0 < (py_split '|' (py_strip raw)).length := lt_trans one_pos h3
    refine normalize_timings_spec _ ?_ ?_
    · intro hc
      rw [List.flatMap_eq_nil_iff] at hc
      exact slot_subs_ne_nil _ _ _ (hc 0 (List.mem_range.mpr hn))
    · intro x hx
      rw [List.mem_flatMap] at hx
      obtain ⟨i, hi, hxi⟩ := hx
      exact slot_subs_bounds _ _ (List.mem_range.mp hi) _ x hxi
  · refine normalize_timings_spec _ ?_ ?_
    · simp
    · intro x hx
      rcases List.mem_singleton.mp hx with rfl
      norm_num
  · have hs : ((py_strip raw).drop 3).length ≠ 0 := h5
    refine normalize_timings_spec _ ?_ ?_
    · simp only [ne_eq, List.map_eq_nil_iff, List.range_eq_nil]
      exact hs
    · intro x hx
      rw [List.mem_map] at hx
      obtain ⟨j, hj, rfl⟩ := hx
      rw [List.mem_range] at hj
      have hsp : 0 < ((py_strip raw).drop 3).length := Nat.pos_of_ne_zero hs
      refine ⟨frac_le_one hj.le hsp, ?_⟩
      have h6 := frac_le_one (Nat.succ_le_of_lt hj) hsp
      push_cast at h6
      simpa [Sub.rEnd] using h6
  · refine normalize_timings_spec _ ?_ ?_
    · simp
    · intro x hx
      rcases List.mem_singleton.mp hx with rfl
      norm_num

/-- C7: parsing the segment string `---cat` yields exactly three
sub-segments with texts `c`, `ca`, `cat`, ratio intervals
`[0,1/3)`, `[1/3,2/3)`, `[2/3,1]`, the layout text `cat`, and the
dynamic flag set. -/
theorem parse_progressive_cat :
    parse_dynamic_segment "---cat".toList =
      ⟨"---cat".toList, true,
       [⟨['c'], 0, 1/3⟩, ⟨['c', 'a'], 1/3, 2/3⟩, ⟨['c', 'a', 't'], 2/3, 1⟩],
       ['c', 'a', 't']⟩ := by
  have hL : "---cat".toList = ['-', '-', '-', 'c', 'a', 't'] := by decide
  have e1 : py_strip ['-', '-', '-', 'c', 'a', 't'] = ['-', '-', '-', 'c', 'a', 't'] := by decide
  have ed : (List.drop 3 ['-', '-', '-', 'c', 'a', 't'] : Str) = ['c', 'a', 't'] := by decide
  rw [hL, parse_progressive_eq _ (by decide) (by decide) (by decide) (by decide) (by decide)]
  congr 1
  · simp only [e1, ed, List.length_cons, List.length_nil]
    norm_num [List.range_succ]
    norm_num [normalize_timings]
    norm_num [norm_pass1, List.isEmpty_cons, List.isEmpty_nil, max_def]
    norm_num [set_first_zero]
    norm_num [norm_pass3, norm_pass3_go, max_def]
    norm_num [set_last_one]

/-- C8: parsing the segment string `x|y|z` yields exactly three
sub-segments with the static slot texts `x`, `y`, `z`, each spanning
one third of the note (`[0,1/3]`, `[1/3,2/3]`, `[2/3,1]`), and the
segment's `text_for_layout` is the last slot's literal text `z`. -/
theorem parse_sequential_xyz :
    parse_dynamic_segment "x|y|z".toList =
      ⟨"x|y|z".toList, true,
       [⟨['x'], 0, 1/3⟩, ⟨['y'], 1/3, 2/3⟩, ⟨['z'], 2/3, 1⟩],
       ['z']⟩ := by
  have hL : "x|y|z".toList = ['x', '|', 'y', '|', 'z'] := by decide
  have e1 : py_strip ['x', '|', 'y', '|', 'z'] = ['x', '|', 'y', '|', 'z'] := by decide
  have e3 : py_split '|' ['x', '|', 'y', '|', 'z'] = [['x'], ['y'], ['z']] := by decide
  rw [hL, parse_sequential_eq _ (by decide) (by decide) (by decide)]
  congr 1
  · simp only [e1, e3, List.length_cons, List.length_nil]
    norm_num +decide [List.range_succ, List.getD_cons_zero, List.getD_cons_succ,
      slot_subs, py_startswith, dashes3]
    norm_num [normalize_timings]
    norm_num [norm_pass1, List.isEmpty_cons, List.isEmpty_nil, max_def]
    norm_num [set_first_zero]
    norm_num [norm_pass3, norm_pass3_go, max_def]
    norm_num [set_last_one]

/-! Note Extractor (src lines 317–344): MIDI messages, per-track time
accumulation, pending-note bookkeeping, and the global sort. -/

/-- The message kinds the extractor distinguishes
(src lines 330–335); everything else falls under `other`. -/
inductive MsgKind where
  | set_tempo (tempo : ℕ)
  | note_on (pitch velocity : ℕ)
  | note_off (pitch : ℕ)
  | other
deriving DecidableEq, Repr

/-- One MIDI track message: a delta time in ticks (`msg.time`) and a
kind. -/
structure MidiMsg where
  time : ℕ
  kind : MsgKind
deriving DecidableEq, Repr

/-- A pending note opened by a note-on (the dict values of
`active_notes_on_track`, src lines 332–334). -/
structure PendingNote where
  start_sec : ℚ
  start_tick : ℕ
  velocity : ℕ
  pitch : ℕ
deriving DecidableEq, Repr

/-- One extracted note (the dict appended to `timed_notes`,
src lines 338–342).  The code records no start tick, only the tick
duration. -/
structure TimedNote where
  time_sec : ℚ
  duration_sec : ℚ
  duration_ticks : ℕ
  pitch : ℕ
  velocity : ℕ
deriving DecidableEq, Repr

/-- `mido.tick2second` (src line 328):
`ticks × tempo_µs / 10⁶ / ticks_per_beat`, as an exact rational. -/
def tick2second (ticks tpb tempo : ℕ) : ℚ :=
  (ticks : ℚ) * tempo / (1000000 * tpb)

/-- Overwriting insert into the pending-note dict
(`active_notes_on_track[msg.note] = …`, src line 332). -/
def dict_set (k : ℕ) (v : PendingNote) (d : List (ℕ × PendingNote)) :
    List (ℕ × PendingNote) :=
  (k, v) :: d.filter (fun p => p.1 ≠ k)

/-- Removal from the pending-note dict (`…pop(msg.note)`, src line 337). -/
def dict_del (k : ℕ) (d : List (ℕ × PendingNote)) : List (ℕ × PendingNote) :=
  d.filter (fun p => p.1 ≠ k)

/-- Key lookup in the pending-note dict (`msg.note in
active_notes_on_track`, src line 336). -/
def dict_get (k : ℕ) : List (ℕ × PendingNote) → Option PendingNote
  | [] => none
  | (k', v) :: es => if k = k' then some v else dict_get k es

/-- The extractor's loop state: the active tempo (initialised once,
before the track loop — src line 323), and per-track absolute time,
absolute tick and pending-note dict (src lines 325–326). -/
structure TrackState where
  tempo : ℕ
  abs_sec : ℚ
  abs_tick : ℕ
  active : List (ℕ × PendingNote)
deriving DecidableEq, Repr

/-- Closing a pending note (src lines 335–342): emit a `TimedNote`
with second duration at least `0.01` and tick duration at least `1`;
a note-off with no pending note of that pitch emits nothing. -/
def close_note (p : ℕ) (abs_sec : ℚ) (abs_tick : ℕ) (st : TrackState) :
    TrackState × List TimedNote :=
  match dict_get p st.active with
  | some pn =>
    ({ st with abs_sec := abs_sec, abs_tick := abs_tick, active := dict_del p st.active },
      [⟨pn.start_sec, max (1/100) (abs_sec - pn.start_sec),
        max 1 (abs_tick - pn.start_tick), pn.pitch, pn.velocity⟩])
  | none => ({ st with abs_sec := abs_sec, abs_tick := abs_tick }, [])

/-- One iteration of the message loop (src lines 327–342): the delta
is converted with the tempo in effect *before* the message, then the
message is dispatched. -/
def track_step (tpb : ℕ) (st : TrackState) (msg : MidiMsg) :
    TrackState × List TimedNote :=
  let abs_sec := st.abs_sec + tick2second msg.time tpb st.tempo
  let abs_tick := st.abs_tick + msg.time
  match msg.kind with
  | .set_tempo t =>
    ({ st with tempo := t, abs_sec := abs_sec, abs_tick := abs_tick }, [])
  | .note_on p v =>
    if 0 < v then
      ({ st with
          abs_sec := abs_sec
          abs_tick := abs_tick
          active := dict_set p ⟨abs_sec, abs_tick, v, p⟩ st.active }, [])
    else close_note p abs_sec abs_tick st
  | .note_off p => close_note p abs_sec abs_tick st
  | .other => ({ st with abs_sec := abs_sec, abs_tick := abs_tick }, [])

/-- The inner message loop of the extractor over one track
(src lines 327–342), emitting closed notes in order. -/
def run_track (tpb : ℕ) : TrackState → List MidiMsg → TrackState × List TimedNote
  | st, [] => (st, [])
  | st, m :: ms =>
    let r1 := track_step tpb st m
    let r2 := run_track tpb r1.1 ms
    (r2.1, r1.2 ++ r2.2)

/-- The outer track loop (src lines 324–342): absolute time, tick and
the pending dict restart at zero for each track, but `current_tempo`
is *not* reset — it carries over from the previous track. -/
def extract_tracks (tpb : ℕ) : ℕ → List (List MidiMsg) → List TimedNote
  | _, [] => []
  | tempo, tr :: trs =>
    let r := run_track tpb ⟨tempo, 0, 0, []⟩ tr
    r.2 ++ extract_tracks tpb r.1.tempo trs

/-- The full extraction (src lines 322–344): walk all tracks starting
from a tempo of 500 000 µs/beat, then stable-sort all notes by start
time (`timed_notes.sort(key=…time_sec)`, src line 343). -/
def extract_timed_notes (tpb : ℕ) (tracks : List (List MidiMsg)) : List TimedNote :=
  (extract_tracks tpb 500000 tracks).insertionSort
    (fun a b => a.time_sec ≤ b.time_sec)

/-- Comparison definition for claim C6, following the claim's words
rather than the code: the tempo is reset to the default
500 000 µs/beat at the beginning of every track, so a tempo change on
one track cannot affect another track's conversions. -/
def extract_tracks_tempo_reset (tpb : ℕ) : List (List MidiMsg) → List TimedNote
  | [] => []
  | tr :: trs =>
    (run_track tpb ⟨500000, 0, 0, []⟩ tr).2 ++ extract_tracks_tempo_reset tpb trs

/-- Claim-C6 comparison extraction: per-track tempo isolation, then
the same global sort. -/
def extract_timed_notes_tempo_reset (tpb : ℕ) (tracks : List (List MidiMsg)) :
    List TimedNote :=
  (extract_tracks_tempo_reset tpb tracks).insertionSort
    (fun a b => a.time_sec ≤ b.time_sec)

/-- C1 counterexample: a same-pitch re-strike at tick 0, where the
first note's recorded off tick is 1 (minimum-duration clamping) and so
lies after the second onset (tick 0).  The extractor does **not**
clamp the second note's start to the first note's recorded end
(`0 ≠ 0 + 1/100`), and the two notes of the same pitch report
overlapping durations (`0 < 0 + 1/100`). -/
theorem extract_overlap_not_clamped_cex :
    extract_timed_notes 480
      [[⟨0, MsgKind.note_on 60 64⟩, ⟨0, MsgKind.note_off 60⟩,
        ⟨0, MsgKind.note_on 60 64⟩, ⟨960, MsgKind.note_off 60⟩]] =
      [⟨0, 1/100, 1, 60, 64⟩, ⟨0, 1, 960, 60, 64⟩] ∧
    ¬ ((0 : ℚ) = 0 + 1/100) ∧ (0 : ℚ) < 0 + 1/100 := by
  refine ⟨?_, by norm_num, by norm_num⟩
  have htr : extract_tracks 480 500000
      [[⟨0, MsgKind.note_on 60 64⟩, ⟨0, MsgKind.note_off 60⟩,
        ⟨0, MsgKind.note_on 60 64⟩, ⟨960, MsgKind.note_off 60⟩]] =
      [⟨0, 1/100, 1, 60, 64⟩, ⟨0, 1, 960, 60, 64⟩] := by
    norm_num [extract_tracks, run_track, track_step, close_note, dict_set,
      dict_del, dict_get, tick2second, max_def]
  rw [extract_timed_notes, htr]
  norm_num [List.insertionSort, List.orderedInsert]

/-- C1 amended: when a pending note of the same pitch on the same
track has closed with a recorded end after the new onset (here forced
by the 1-tick/0.01-s minimum-duration extension), the extractor does
not clamp the new note's effective start: the second note's start is
its own onset (`a/960` seconds at the default tempo), which still
precedes the first note's recorded end. -/
theorem extract_overlap_second_start_unclamped (p v1 v2 a d : ℕ)
    (h1 : 0 < v1) (h2 : 0 < v2) :
    extract_timed_notes 480
      [[⟨a, MsgKind.note_on p v1⟩, ⟨0, MsgKind.note_off p⟩,
        ⟨0, MsgKind.note_on p v2⟩, ⟨d, MsgKind.note_off p⟩]] =
      [⟨(a : ℚ) * (1/960), 1/100, 1, p, v1⟩,
       ⟨(a : ℚ) * (1/960), max (1/100) ((d : ℚ) * (1/960)), max 1 d, p, v2⟩] ∧
    (a : ℚ) * (1/960) < (a : ℚ) * (1/960) + 1/100 := by
  constructor
  · have htr : extract_tracks 480 500000
        [[⟨a, MsgKind.note_on p v1⟩, ⟨0, MsgKind.note_off p⟩,
          ⟨0, MsgKind.note_on p v2⟩, ⟨d, MsgKind.note_off p⟩]] =
        [⟨(a : ℚ) * (1/960), 1/100, 1, p, v1⟩,
         ⟨(a : ℚ) * (1/960), max (1/100) ((d : ℚ) * (1/960)), max 1 d, p, v2⟩] := by
      norm_num [extract_tracks, run_track, track_step, close_note, dict_set,
        dict_del, dict_get, tick2second, h1, h2, max_def]
      ring_nf
      norm_num
    rw [extract_timed_notes, htr]
    norm_num [List.insertionSort, List.orderedInsert]
  · norm_num

/-- Witness for the amended C1 theorem at pitch 60, velocities 64,
onset tick 0, second duration 960 ticks. -/
theorem extract_overlap_second_start_unclamped_witness :
    extract_timed_notes 480
      [[⟨0, MsgKind.note_on 60 64⟩, ⟨0, MsgKind.note_off 60⟩,
        ⟨0, MsgKind.note_on 60 64⟩, ⟨960, MsgKind.note_off 60⟩]] =
      [⟨0, 1/100, 1, 60, 64⟩, ⟨0, 1, 960, 60, 64⟩] := by
  have h := (extract_overlap_second_start_unclamped 60 64 64 0 960
    (by norm_num) (by norm_num)).1
  norm_num [max_def] at h
  exact h

/-- C6 counterexample: a tempo change on track 0 changes the
conversion of track 1's deltas.  With `set_tempo 1 000 000` on track 0
and a note at delta 480 on track 1 (480 ticks per beat), the code
converts with the carried-over tempo (start `1` s), not with a
per-track default tempo (start `1/2` s, as computed by the
claim-faithful `extract_timed_notes_tempo_reset`). -/
theorem extract_tempo_not_isolated_cex :
    extract_timed_notes 480
      [[⟨0, MsgKind.set_tempo 1000000⟩],
       [⟨480, MsgKind.note_on 60 64⟩, ⟨480, MsgKind.note_off 60⟩]] =
      [⟨1, 1, 480, 60, 64⟩] ∧
    extract_timed_notes_tempo_reset 480
      [[⟨0, MsgKind.set_tempo 1000000⟩],
       [⟨480, MsgKind.note_on 60 64⟩, ⟨480, MsgKind.note_off 60⟩]] =
      [⟨1/2, 1/2, 480, 60, 64⟩] ∧
    (1 : ℚ) ≠ 1/2 := by
  refine ⟨?_, ?_, by norm_num⟩
  · have htr : extract_tracks 480 500000
        [[⟨0, MsgKind.set_tempo 1000000⟩],
         [⟨480, MsgKind.note_on 60 64⟩, ⟨480, MsgKind.note_off 60⟩]] =
        [⟨1, 1, 480, 60, 64⟩] := by
      norm_num [extract_tracks, run_track, track_step, close_note, dict_set,
        dict_del, dict_get, tick2second, max_def]
    rw [extract_timed_notes, htr]
    norm_num [List.insertionSort, List.orderedInsert]
  · have htr : extract_tracks_tempo_reset 480
        [[⟨0, MsgKind.set_tempo 1000000⟩],
         [⟨480, MsgKind.note_on 60 64⟩, ⟨480, MsgKind.note_off 60⟩]] =
        [⟨1/2, 1/2, 480, 60, 64⟩] := by
      norm_num [extract_tracks_tempo_reset, run_track, track_step, close_note,
        dict_set, dict_del, dict_get, tick2second, max_def]
    rw [extract_timed_notes_tempo_reset, htr]
    norm_num [List.insertionSort, List.orderedInsert]

/-- C6 amended: the active tempo is initialised once before the track
loop and persists across tracks: a `set_tempo t` on track 0 converts
every delta of track 1, so the note's start is `d·t/(10⁶·480)` seconds
rather than a value computed from the 500 000 default. -/
theorem extract_tempo_carries_across_tracks (t p v d e : ℕ) (hv : 0 < v) :
    extract_timed_notes 480
      [[⟨0, MsgKind.set_tempo t⟩],
       [⟨d, MsgKind.note_on p v⟩, ⟨e, MsgKind.note_off p⟩]] =
      [⟨(d : ℚ) * t / 480000000, max (1/100) ((e : ℚ) * t / 480000000),
        max 1 e, p, v⟩] := by
  have htr : extract_tracks 480 500000
      [[⟨0, MsgKind.set_tempo t⟩],
       [⟨d, MsgKind.note_on p v⟩, ⟨e, MsgKind.note_off p⟩]] =
      [⟨(d : ℚ) * t / 480000000, max (1/100) ((e : ℚ) * t / 480000000),
        max 1 e, p, v⟩] := by
    norm_num [extract_tracks, run_track, track_step, close_note, dict_set,
      dict_del, dict_get, tick2second, hv, max_def]
  rw [extract_timed_notes, htr]
  norm_num [List.insertionSort, List.orderedInsert]

/-- Witness for the amended C6 theorem: tempo 1 000 000 µs/beat set on
track 0, note at delta 480 with duration 480 ticks on track 1. -/
theorem extract_tempo_carries_across_tracks_witness :
    extract_timed_notes 480
      [[⟨0, MsgKind.set_tempo 1000000⟩],
       [⟨480, MsgKind.note_on 60 64⟩, ⟨480, MsgKind.note_off 60⟩]] =
      [⟨1, 1, 480, 60, 64⟩] := by
  have h := extract_tempo_carries_across_tracks 1000000 60 64 480 480 (by norm_num)
  norm_num [max_def] at h
  exact h

/-! Event Scheduler (src lines 398–463): pair lyric segments with
notes in strict FIFO order and build the master timeline. -/

/-- The per-segment payload of a `char` event
(`event_data_for_char`, src lines 423–435). -/
structure CharData where
  original_segment_text : Str
  text_for_layout : Str
  is_dynamic : Bool
  sub_segments_timed : List Sub
  velocity : ℕ
  line_idx : ℕ
  segment_idx_in_line : ℕ
  pitch : ℕ
  duration_ticks : ℕ
  note_start_time_sec : ℚ
  note_duration_sec : ℚ
deriving DecidableEq, Repr

/-- One timeline event (the dicts appended to `final_events`,
src lines 413, 441–445, 461). -/
inductive TEvent where
  | clear_line (time : ℚ) (line_idx : ℕ)
  | char (time : ℚ) (data : CharData)
deriving DecidableEq, Repr

/-- Timestamp of a timeline event. -/
def TEvent.time : TEvent → ℚ
  | .clear_line t _ => t
  | .char t _ => t

/-- Whether an event is a `char` event. -/
def TEvent.isChar : TEvent → Bool
  | .clear_line _ _ => false
  | .char _ _ => true

/-- Sort priority at equal timestamps (src line 463):
`clear_line` events sort before `char` events. -/
def TEvent.sort_pri : TEvent → ℕ
  | .clear_line _ _ => 0
  | .char _ _ => 1

/-- Line index carried by an event (`ev['data']['line_idx']`,
src line 456). -/
def TEvent.line_idx : TEvent → ℕ
  | .clear_line _ li => li
  | .char _ d => d.line_idx

/-- Build of `event_data_for_char` (src lines 423–435): the parse of
the raw segment plus the bound note's fields. -/
def mk_char_data (raw : Str) (li si : ℕ) (n : TimedNote) : CharData :=
  let parsed := parse_dynamic_segment raw
  ⟨raw, parsed.text_for_layout, parsed.is_dynamic, parsed.sub_segments_timed,
    n.velocity, li, si, n.pitch, n.duration_ticks, n.time_sec, n.duration_sec⟩

/-- The note a `char` payload is bound to, reassembled from the
fields the scheduler copied out of it. -/
def CharData.bound_note (d : CharData) : TimedNote :=
  ⟨d.note_start_time_sec, d.note_duration_sec, d.duration_ticks, d.pitch, d.velocity⟩

/-- Inner segment loop of the scheduler (src lines 415–447): one
`char` event per raw segment while notes remain, consuming notes
front-to-back; returns the events and the remaining notes. -/
def sched_line : List TimedNote → ℕ → ℕ → List Str → List TEvent × List TimedNote
  | notes, _, _, [] => ([], notes)
  | [], _, _, _ :: _ => ([], [])
  | n :: ns, li, si, seg :: segs =>
    let r := sched_line ns li (si + 1) segs
    (TEvent.char n.time_sec (mk_char_data seg li si n) :: r.1, r.2)

/-- Outer line loop of the scheduler (src lines 401–447): while notes
remain, each line first gets a `clear_line` event at the next
available note's start time, then its segments are bound FIFO; when
notes run out the remaining lines produce no events (the code breaks
out of the loop, or — for an initially empty note list — skips every
line). -/
def sched_lines : List TimedNote → ℕ → List (List Str) → List TEvent
  | _, _, [] => []
  | [], _, _ :: _ => []
  | n :: ns, li, segs :: rest =>
    let r := sched_line (n :: ns) li 0 segs
    TEvent.clear_line n.time_sec li :: (r.1 ++ sched_lines r.2 (li + 1) rest)

/-- Latest `char` timestamp (`last_lyric_time`, src lines 451–453;
`0` when there is no non-clear event). -/
def last_lyric_time (evs : List TEvent) : ℚ :=
  match (evs.filter TEvent.isChar).map TEvent.time with
  | [] => 0
  | t :: ts => ts.foldl max t

/-- Greatest line index over all events (`max_line_idx`,
src lines 455–458; meaningful only when `evs` is nonempty). -/
def max_line_idx (evs : List TEvent) : ℕ :=
  match evs.map TEvent.line_idx with
  | [] => 0
  | i :: is' => is'.foldl max i

/-- The scheduler output plus the trailing `clear_line`
(src lines 450–461): when any event exists, a final clear one line
beyond the maximum used line is appended at
`max(last lyric time + 0.5, total MIDI duration + 0.1)`. -/
def build_final_events (notes : List TimedNote) (lines : List (List Str))
    (total_dur : ℚ) : List TEvent :=
  let evs := sched_lines notes 0 lines
  if evs.isEmpty then evs
  else
    evs ++ [TEvent.clear_line (max (last_lyric_time evs + 1/2) (total_dur + 1/10))
      (max_line_idx evs + 1)]

/-- The sort key order of src line 463: by time, with `clear_line`
before `char` at equal timestamps. -/
def ev_le (a b : TEvent) : Prop :=
  a.time < b.time ∨ (a.time = b.time ∧ a.sort_pri ≤ b.sort_pri)

instance : DecidableRel ev_le := fun a b => by
  unfold ev_le
  infer_instance

/-- The sorted master timeline (`final_events.sort(key=…)`,
src line 463), modelling Python's stable sort with a stable insertion
sort. -/
def master_timeline (notes : List TimedNote) (lines : List (List Str))
    (total_dur : ℚ) : List TEvent :=
  (build_final_events notes lines total_dur).insertionSort ev_le

/-- The `char` payloads of a timeline, in order. -/
def char_datas (evs : List TEvent) : List CharData :=
  evs.filterMap (fun e =>
    match e with
    | .char _ d => some d
    | .clear_line _ _ => none)

lemma char_datas_append (l1 l2 : List TEvent) :
    char_datas (l1 ++ l2) = char_datas l1 ++ char_datas l2 := by
  simp [char_datas]

lemma char_datas_length_filter (evs : List TEvent) :
    (char_datas evs).length = (evs.filter TEvent.isChar).length := by
  induction evs with
  | nil => rfl
  | cons e r ih =>
    cases e with
    | clear_line t li => simpa [char_datas, TEvent.isChar, List.filter] using ih
    | char t d => simpa [char_datas, TEvent.isChar, List.filter] using ih

lemma bound_note_mk_char_data (raw : Str) (li si : ℕ) (n : TimedNote) :
    (mk_char_data raw li si n).bound_note = n := rfl

lemma sched_line_bound (segs : List Str) (notes : List TimedNote) (li si : ℕ) :
    (char_datas (sched_line notes li si segs).1).map CharData.bound_note
      = notes.take (char_datas (sched_line notes li si segs).1).length ∧
    (sched_line notes li si segs).2
      = notes.drop (char_datas (sched_line notes li si segs).1).length := by
  induction segs generalizing notes si with
  | nil => simp [sched_line, char_datas]
  | cons s ss ih =>
    cases notes with
    | nil => simp [sched_line, char_datas]
    | cons n ns =>
      obtain ⟨ih1, ih2⟩ := ih ns (si + 1)
      simp only [sched_line, char_datas, List.filterMap_cons] at ih1 ih2 ⊢
      constructor
      · simp only [List.map_cons, List.length_cons, List.take_succ_cons,
          bound_note_mk_char_data]
        rw [ih1]
      · simp only [List.length_cons, List.drop_succ_cons]
        exact ih2

lemma sched_lines_bound (lines : List (List Str)) (notes : List TimedNote) (li : ℕ) :
    (char_datas (sched_lines notes li lines)).map CharData.bound_note
      = notes.take (char_datas (sched_lines notes li lines)).length := by
  induction lines generalizing notes li with
  | nil => simp [sched_lines, char_datas]
  | cons segs rest ih =>
    cases notes with
    | nil => simp [sched_lines, char_datas]
    | cons n ns =>
      obtain ⟨h1, h2⟩ := sched_line_bound segs (n :: ns) li 0
      have ihr := ih (sched_line (n :: ns) li 0 segs).2 (li + 1)
      simp only [sched_lines, char_datas, List.filterMap_cons, List.filterMap_append] at *
      rw [List.map_append, h1, ihr, h2, List.length_append]
      exact (List.take_add _ _ _).symm

/-- C3 amended: in document order, the scheduler's `char` events are
bound one-to-one to the initial notes in FIFO order (the Nth segment
in reading order binds to the Nth unconsumed note globally), the
number of `char` events in the master timeline never exceeds the
number of extracted notes, and — when the note list is sorted by
start time, as the extractor guarantees — the bound note starts are
*non-decreasing* (not strictly increasing: simultaneous notes of a
chord share a start time). -/
theorem scheduler_fifo_binding (notes : List TimedNote) (lines : List (List Str))
    (total_dur : ℚ) :
    (char_datas (build_final_events notes lines total_dur)).map CharData.bound_note
      = notes.take (char_datas (build_final_events notes lines total_dur)).length ∧
    ((master_timeline notes lines total_dur).filter TEvent.isChar).length
      ≤ notes.length ∧
    (List.Chain' (fun a b : TimedNote => a.time_sec ≤ b.time_sec) notes →
      List.Chain' (fun x y : ℚ => x ≤ y)
        ((char_datas (build_final_events notes lines total_dur)).map
          CharData.note_start_time_sec)) := by
  have hb : char_datas (build_final_events notes lines total_dur)
      = char_datas (sched_lines notes 0 lines) := by
    by_cases h : (sched_lines notes 0 lines).isEmpty
    · simp [build_final_events, h]
    · simp [build_final_events, h, char_datas_append, char_datas]
  have hA : (char_datas (build_final_events notes lines total_dur)).map
      CharData.bound_note
      = notes.take (char_datas (build_final_events notes lines total_dur)).length := by
    rw [hb]
    exact sched_lines_bound lines notes 0
  have hlen : (char_datas (build_final_events notes lines total_dur)).length
      ≤ notes.length := by
    have hmap := congrArg List.length hA
    rw [List.length_map, List.length_take] at hmap
    rw [hmap]
    exact min_le_right _ _
  refine ⟨hA, ?_, ?_⟩
  · have hperm : (master_timeline notes lines total_dur).Perm
        (build_final_events notes lines total_dur) :=
      List.perm_insertionSort ev_le _
    have hcount : ((master_timeline notes lines total_dur).filter TEvent.isChar).length
        = ((build_final_events notes lines total_dur).filter TEvent.isChar).length := by
      rw [← List.countP_eq_length_filter, ← List.countP_eq_length_filter]
      exact hperm.countP_eq _
    rw [hcount, ← char_datas_length_filter]
    exact hlen
  · intro hs
    have hproj : (char_datas (build_final_events notes lines total_dur)).map
        CharData.note_start_time_sec
        = ((char_datas (build_final_events notes lines total_dur)).map
            CharData.bound_note).map TimedNote.time_sec := by
      simp [List.map_map, Function.comp, CharData.bound_note]
    rw [hproj, hA, List.chain'_map]
    have htake : List.Chain' (fun a b : TimedNote => a.time_sec ≤ b.time_sec)
        (notes.take (char_datas (build_final_events notes lines total_dur)).length) := by
      exact hs.take _
    exact htake

/-- Witness for the amended C3 theorem: a two-note chord (both notes
start at `0`) against one lyric line `a/b`. -/
theorem scheduler_fifo_binding_witness :
    (char_datas (build_final_events [⟨0, 1, 1, 60, 64⟩, ⟨0, 1, 1, 64, 70⟩]
        [[['a'], ['b']]] 2)).map CharData.bound_note
      = [TimedNote.mk 0 1 1 60 64, TimedNote.mk 0 1 1 64 70].take
          (char_datas (build_final_events [⟨0, 1, 1, 60, 64⟩, ⟨0, 1, 1, 64, 70⟩]
            [[['a'], ['b']]] 2)).length ∧
    ((master_timeline [⟨0, 1, 1, 60, 64⟩, ⟨0, 1, 1, 64, 70⟩]
        [[['a'], ['b']]] 2).filter TEvent.isChar).length ≤ 2 ∧
    List.Chain' (fun x y : ℚ => x ≤ y)
      ((char_datas (build_final_events [⟨0, 1, 1, 60, 64⟩, ⟨0, 1, 1, 64, 70⟩]
        [[['a'], ['b']]] 2)).map CharData.note_start_time_sec) := by
  have h := scheduler_fifo_binding [⟨0, 1, 1, 60, 64⟩, ⟨0, 1, 1, 64, 70⟩]
    [[['a'], ['b']]] 2
  refine ⟨h.1, by simpa using h.2.1, h.2.2 ?_⟩
  norm_num [List.chain'_cons, List.chain'_singleton]

/-- C3 counterexample to strictness: a chord — two notes of different
pitches struck at the same tick — is extracted with equal start times,
and the two segments of the line `a/b` bind to them at the same
start `0`, so the bound note starts are not strictly increasing. -/
theorem scheduler_strict_order_cex :
    (char_datas (build_final_events (extract_timed_notes 480
        [[⟨0, MsgKind.note_on 60 64⟩, ⟨0, MsgKind.note_on 64 70⟩,
          ⟨100, MsgKind.note_off 60⟩, ⟨0, MsgKind.note_off 64⟩]])
        [[['a'], ['b']]] 2)).map CharData.note_start_time_sec = [0, 0] ∧
    ¬ List.Chain' (fun x y : ℚ => x < y) [(0 : ℚ), 0] := by
  constructor
  · have hn : extract_timed_notes 480
        [[⟨0, MsgKind.note_on 60 64⟩, ⟨0, MsgKind.note_on 64 70⟩,
          ⟨100, MsgKind.note_off 60⟩, ⟨0, MsgKind.note_off 64⟩]] =
        [⟨0, 5/48, 100, 60, 64⟩, ⟨0, 5/48, 100, 64, 70⟩] := by
      have htr : extract_tracks 480 500000
          [[⟨0, MsgKind.note_on 60 64⟩, ⟨0, MsgKind.note_on 64 70⟩,
            ⟨100, MsgKind.note_off 60⟩, ⟨0, MsgKind.note_off 64⟩]] =
          [⟨0, 5/48, 100, 60, 64⟩, ⟨0, 5/48, 100, 64, 70⟩] := by
        norm_num [extract_tracks, run_track, track_step, close_note, dict_set,
          dict_del, dict_get, tick2second, max_def]
      rw [extract_timed_notes, htr]
      norm_num [List.insertionSort, List.orderedInsert]
    rw [hn]
    norm_num [build_final_events, sched_lines, sched_line, char_datas,
      mk_char_data, last_lyric_time, max_line_idx, List.filterMap_cons]
  · norm_num [List.chain'_cons, List.chain'_singleton]

/-! Frame count (src lines 465–476). -/

/-- Python `int(x)` truncation toward zero, as used at src
lines 466 and 473. -/
def py_int (q : ℚ) : ℤ := if 0 ≤ q then ⌊q⌋ else -⌊-q⌋

/-- `max(ev['time'] for ev in final_events)` (src line 471;
`0` for an empty list, matching the guard's fallback). -/
def max_event_time (evs : List TEvent) : ℚ :=
  match evs.map TEvent.time with
  | [] => 0
  | t :: ts => ts.foldl max t

/-- The frame-count computation (src lines 465–476): the count is
`int(total_midi_duration × fps)` — truncation, not rounding — and the
duration is extended to cover trailing events *only* when that count
is not positive; `none` models the two abort paths (src lines 468
and 476). -/
def compute_total_frames (total_dur : ℚ) (fps : ℕ) (evs : List TEvent)
    (has_notes has_lyrics : Bool) : Option ℤ :=
  let frames0 : ℤ := py_int (total_dur * fps)
  if frames0 ≤ 0 then
    if total_dur ≤ 0 ∧ ¬has_notes then none
    else
      let frames1 : ℤ :=
        if ¬evs.isEmpty then
          let d := max total_dur (max_event_time evs + 1/2)
          let f := py_int (d * fps)
          if f < 1 ∧ (has_notes ∨ has_lyrics) then 1 else f
        else frames0
      if frames1 ≤ 0 then none else some frames1
  else some frames0

/-- C5 counterexample: a 1.99-second MIDI with no timeline events at
30 fps.  The effective duration is the nominal duration (there is no
trailing event), yet the code produces `int(1.99 × 30) = 59` frames
while the claim's `round(1.99 × 30)` is `60`. -/
theorem frame_count_cex :
    compute_total_frames (199/100) 30 [] true false = some 59 ∧
    round ((199/100 : ℚ) * 30) = 60 ∧ (59 : ℤ) ≠ 60 := by
  refine ⟨?_, ?_, by norm_num⟩
  · norm_num [compute_total_frames, py_int]
  · norm_num [round_eq]

/-- C5 amended: whenever `int(nominal_duration × fps)` is positive,
the total frame count is exactly that truncated value — no rounding,
and no extension of the duration for trailing timeline events; only
when the truncated count is not positive does the code extend the
duration over trailing events and recompute. -/
theorem frame_count_truncates (total_dur : ℚ) (fps : ℕ) (evs : List TEvent)
    (has_notes has_lyrics : Bool) (h : 1 ≤ py_int (total_dur * fps)) :
    compute_total_frames total_dur fps evs has_notes has_lyrics
      = some (py_int (total_dur * fps)) := by
  unfold compute_total_frames
  rw [if_neg (by omega)]

/-- Witness for the amended C5 theorem at 1.99 s, 30 fps, with a
trailing event at 2.09 s present: the event is ignored and the count
is the truncated 59. -/
theorem frame_count_truncates_witness :
    compute_total_frames (199/100) 30 [TEvent.clear_line (209/100) 1] true true
      = some 59 := by
  have h := frame_count_truncates (199/100) 30 [TEvent.clear_line (209/100) 1]
    true true (by norm_num [py_int])
  rw [h]
  norm_num [py_int]

/-! Layout Engine and Frame Compositor (src lines 117–184 and
499–736).  Text measurement (`_get_text_width` over PIL font objects)
is an abstract parameter `measure : Str → ℤ → ℤ` mapping a text and an
integer font size to an integer pixel width. -/

/-- The layout/drawing configuration (the scalar parameters of
`generate_lyric_video_v2` used by `_calculate_fixed_layout_for_line_v2`
and the drawing loop). -/
structure LayoutCfg where
  font_size_base_for_line : ℤ
  char_spacing : ℤ
  line_h_align : Str
  line_anchor_x : ℤ
  pitch_size_scale : ℚ
  velocity_size_scale : ℚ
  reference_pitch : ℤ
  reference_velocity : ℤ
  duration_padding_threshold_ticks : ℤ
  duration_padding_scale_per_tick : ℚ
  min_char_render_size : ℤ
  max_char_render_size : ℤ
deriving DecidableEq, Repr

/-- Python string constant `"left"`. -/
def align_left : Str := ['l', 'e', 'f', 't']

/-- Python string constant `"center"`. -/
def align_center : Str := ['c', 'e', 'n', 't', 'e', 'r']

/-- Python string constant `"right"`. -/
def align_right : Str := ['r', 'i', 'g', 'h', 't']

/-- Effective integer font size of a bound segment (src lines 146–151,
identically recomputed at src lines 602–605): pitch and velocity
scaling applied to the base size, clamped to
`[min_char_render_size, max_char_render_size]` and truncated. -/
def effective_font_size (cfg : LayoutCfg) (pitch velocity : ℕ) : ℤ :=
  let s0 : ℚ := cfg.font_size_base_for_line
  let s1 : ℚ := if cfg.pitch_size_scale ≠ 0 then
      s0 * (1 + ((pitch : ℚ) - cfg.reference_pitch) * cfg.pitch_size_scale) else s0
  let s2 : ℚ := if cfg.velocity_size_scale ≠ 0 then
      s1 * (1 + ((velocity : ℚ) - cfg.reference_velocity) * cfg.velocity_size_scale) else s1
  py_int (max (cfg.min_char_render_size : ℚ) (min (cfg.max_char_render_size : ℚ) s2))

/-- A segment's duration-driven trailing padding (src lines 166–171,
identically recomputed at src lines 626–630). -/
def segment_trailing_padding (cfg : LayoutCfg) (duration_ticks : ℕ) : ℤ :=
  let p : ℚ :=
    if cfg.duration_padding_threshold_ticks < (duration_ticks : ℚ) ∧
        cfg.duration_padding_scale_per_tick ≠ 0 then
      ((duration_ticks : ℚ) - cfg.duration_padding_threshold_ticks) *
        cfg.duration_padding_scale_per_tick
    else 0
  max 0 (py_int p)

/-- The per-segment tuple fed to the fixed layout computation (the
dicts built at src lines 537–540). -/
structure SegLayoutData where
  text : Str
  pitch : ℕ
  velocity : ℕ
  duration_ticks : ℕ
deriving DecidableEq, Repr

/-- The `layout_info` dict of `_calculate_fixed_layout_for_line_v2`
(src line 128). -/
structure LineLayout where
  line_start_x_on_canvas : ℚ
  total_width_for_alignment : ℚ
deriving DecidableEq, Repr

/-- The width accumulation loop of
`_calculate_fixed_layout_for_line_v2` (src lines 139–175): every
segment contributes its measured width; every non-final segment also
contributes its trailing padding and the inter-segment spacing. -/
def total_calculated_width (measure : Str → ℤ → ℤ) (cfg : LayoutCfg) :
    List SegLayoutData → ℚ
  | [] => 0
  | [d] => (measure d.text (effective_font_size cfg d.pitch d.velocity) : ℚ)
  | d :: d2 :: rest =>
    (measure d.text (effective_font_size cfg d.pitch d.velocity) : ℚ)
      + (segment_trailing_padding cfg d.duration_ticks : ℚ)
      + (cfg.char_spacing : ℚ)
      + total_calculated_width measure cfg (d2 :: rest)

/-- The horizontal anchoring of a computed width (src lines 179–182). -/
def align_start_x (cfg : LayoutCfg) (w : ℚ) : ℚ :=
  if cfg.line_h_align = align_left then (cfg.line_anchor_x : ℚ)
  else if cfg.line_h_align = align_center then (cfg.line_anchor_x : ℚ) - w / 2
  else if cfg.line_h_align = align_right then (cfg.line_anchor_x : ℚ) - w
  else (cfg.line_anchor_x : ℚ) - w / 2

/-- Embedding of `_calculate_fixed_layout_for_line_v2`
(src lines 117–184): an empty segment list anchors at the raw anchor
with zero width (src lines 130–135); otherwise the total width is
accumulated and anchored per the alignment mode. -/
def calculate_fixed_layout_for_line_v2 (measure : Str → ℤ → ℤ) (cfg : LayoutCfg)
    (segs : List SegLayoutData) : LineLayout :=
  if segs.isEmpty then ⟨(cfg.line_anchor_x : ℚ), 0⟩
  else
    let w := total_calculated_width measure cfg segs
    ⟨align_start_x cfg w, w⟩

/-- Generic key lookup in an integer-keyed association list, the model
of Python dict membership/lookup for the fixed-layout cache
(`current_line_idx_on_screen not in fixed_layout_cache`, src
line 527). -/
def cache_get (k : ℕ) : List (ℕ × LineLayout) → Option LineLayout
  | [] => none
  | (k', v) :: es => if k = k' then some v else cache_get k es

/-- The compositor's per-run mutable state (src lines 502–506):
the line on screen (`-1` before the first clear), the per-line slot
array of active segment payloads, and the fixed-layout cache. -/
structure CompState where
  current_line_idx_on_screen : ℤ
  active_segment_event_data : List (Option CharData)
  fixed_layout_cache : List (ℕ × LineLayout)
deriving DecidableEq, Repr

/-- The state at the start of the frame loop (src lines 502–506). -/
def init_comp_state : CompState := ⟨-1, [], []⟩

/-- The compositor's read-only inputs relevant to event processing. -/
structure CompParams where
  parsed_lyrics : List (List Str)
  final_events : List TEvent
  line_placement_fixed : Bool
  cfg : LayoutCfg
deriving Repr

/-- The `char` payloads of a given line, sorted by
`segment_idx_in_line` and projected to layout data (src lines
528–540). -/
def segs_for_layout (evs : List TEvent) (li : ℕ) : List SegLayoutData :=
  (((char_datas evs).filter (fun d => d.line_idx == li)).insertionSort
      (fun a b => a.segment_idx_in_line ≤ b.segment_idx_in_line)).map
    (fun d => ⟨d.text_for_layout, d.pitch, d.velocity, d.duration_ticks⟩)

/-- The pure value the fixed-layout cache stores for a line: the
layout computed from that line's final (fully revealed) segment
texts, a function of the timeline only. -/
def fixed_layout_for_line (measure : Str → ℤ → ℤ) (P : CompParams) (li : ℕ) :
    LineLayout :=
  calculate_fixed_layout_for_line_v2 measure P.cfg (segs_for_layout P.final_events li)

/-- The number of segment slots of a line
(`num_max_segments_in_current_line`, src lines 519–523): the segment
count of the lyric line when the index is in range, otherwise `0`. -/
def num_segments_for_line (P : CompParams) (target : ℕ) : ℕ :=
  if target < P.parsed_lyrics.length then (P.parsed_lyrics.getD target []).length
  else 0

/-- The `clear_line` handler (src lines 514–557): a clear for a line
index not greater than the one on screen (when one is active) is
ignored; otherwise the slot array is reset for the new line, and in
fixed placement mode the line's layout is computed from the final
texts and inserted into the cache if not already present. -/
def process_clear (measure : Str → ℤ → ℤ) (P : CompParams) (st : CompState)
    (target : ℕ) : CompState :=
  if (target : ℤ) > st.current_line_idx_on_screen ∨
      st.current_line_idx_on_screen = -1 then
    let num_max := num_segments_for_line P target
    let st1 : CompState := ⟨(target : ℤ), List.replicate num_max none,
      st.fixed_layout_cache⟩
    if P.line_placement_fixed = true ∧ cache_get target st.fixed_layout_cache = none ∧
        0 < num_max then
      let seg_list := segs_for_layout P.final_events target
      let layout := if ¬seg_list.isEmpty then
          calculate_fixed_layout_for_line_v2 measure P.cfg seg_list
        else calculate_fixed_layout_for_line_v2 measure P.cfg []
      { st1 with fixed_layout_cache := (target, layout) :: st.fixed_layout_cache }
    else st1
  else st

/-- The `char` handler (src lines 560–566): activate the slot only if
the event belongs to the line currently on screen and its slot index
is within the slot array. -/
def process_char (st : CompState) (d : CharData) : CompState :=
  if (d.line_idx : ℤ) = st.current_line_idx_on_screen ∧
      d.segment_idx_in_line < st.active_segment_event_data.length then
    { st with active_segment_event_data :=
        st.active_segment_event_data.set d.segment_idx_in_line (some d) }
  else st

/-- Dispatch of one consumed timeline event (src lines 512–567). -/
def process_event (measure : Str → ℤ → ℤ) (P : CompParams) (st : CompState) :
    TEvent → CompState
  | .clear_line _ li => process_clear measure P st li
  | .char _ d => process_char st d

/-- Consuming a list of timeline events in order (the event-cursor
loop, src lines 512–567). -/
def process_events (measure : Str → ℤ → ℤ) (P : CompParams) :
    CompState → List TEvent → CompState
  | st, [] => st
  | st, e :: es => process_events measure P (process_event measure P st e) es

/-- The sub-segment selection loop of the drawing pass
(src lines 586–592): the first sub-segment whose conditions match the
progress value — exact zero-width-at-zero match, half-open interval
membership, or the end-inclusive final match. -/
def find_sub : List Sub → ℚ → Option Str
  | [], _ => none
  | s :: rest, p =>
    if (s.rStart = 0 ∧ s.rEnd = 0 ∧ p = 0) ∨ (s.rStart ≤ p ∧ p < s.rEnd) ∨
        (s.rEnd = 1 ∧ p = 1) then some s.text
    else find_sub rest p

/-- The text a slot shows at video time `t` (src lines 578–599):
static segments always show `text_for_layout`; dynamic segments clamp
`progress = (t − note_start)/note_duration` into `[0,1]`, select the
matching sub-segment, and fall back to the last (or first) sub-segment
text when nothing matches. -/
def visible_text (d : CharData) (t : ℚ) : Str :=
  if d.is_dynamic = true then
    if d.note_duration_sec ≤ 1/1000000 then
      match d.sub_segments_timed.getLast? with
      | some s => s.text
      | none => []
    else
      let progress := max 0 (min 1 ((t - d.note_start_time_sec) / d.note_duration_sec))
      match find_sub d.sub_segments_timed progress with
      | some txt => txt
      | none =>
        match d.sub_segments_timed with
        | [] => []
        | s0 :: rest =>
          if 1 ≤ progress then ((s0 :: rest).getLast (by simp)).text
          else if progress ≤ 0 then s0.text
          else ((s0 :: rest).getLast (by simp)).text
  else d.text_for_layout

/-- Whether a slot is of progressive type for padding distribution
(src lines 708–713): dynamic, raw text starts with `---`, and the raw
text is not a backquote literal. -/
def is_progressive_type (d : CharData) : Bool :=
  d.is_dynamic &&
    py_startswith dashes3 (py_strip d.original_segment_text) &&
    !(py_startswith backquote3 (py_strip d.original_segment_text) &&
      py_endswith backquote3 (py_strip d.original_segment_text))

/-- Index of the last active slot
(`idx_of_last_segment_to_draw_this_frame`, src lines 571–577; `-1`
when no slot is active). -/
def idx_of_last_some (slots : List (Option CharData)) : ℤ :=
  (List.range slots.length).foldl
    (fun acc i => if (slots.getD i none).isSome then (i : ℤ) else acc) (-1)

/-- The fixed-mode drawing advance (src lines 679–736): for each
active slot up to the last active one, the slot's draw x is the
running cursor; the cursor then advances by the measured width of
each *currently visible* character plus a per-character share of the
slot's trailing padding (distributed over the final text for
progressive slots), or by the padding as a block for empty visible
text, plus the inter-segment spacing before the next drawn slot. -/
def draw_go (measure : Str → ℤ → ℤ) (cfg : LayoutCfg) (num_max : ℕ)
    (idx_last : ℤ) : ℕ → ℚ → ℚ → List (Option CharData) → List (Option ℚ)
  | _, _, _, [] => []
  | i, x, t, none :: rest => none :: draw_go measure cfg num_max idx_last (i + 1) x t rest
  | i, x, t, some d :: rest =>
    if (i : ℤ) ≤ idx_last then
      let fsize := effective_font_size cfg d.pitch d.velocity
      let txt := visible_text d t
      let pad : ℚ := (segment_trailing_padding cfg d.duration_ticks : ℚ)
      let eff_pad : ℚ := if i < num_max - 1 then pad else 0
      let x1 :=
        if ¬txt.isEmpty then
          let basis := if is_progressive_type d then d.text_for_layout else txt
          let per_char : ℚ :=
            if 0 < basis.length ∧ 0 < eff_pad then eff_pad / basis.length else 0
          x + (txt.map (fun c => ((measure [c] fsize : ℚ) + per_char))).sum
        else if 0 < eff_pad then x + eff_pad else x
      let x2 := if (i : ℤ) < idx_last then x1 + (cfg.char_spacing : ℚ) else x1
      some x :: draw_go measure cfg num_max idx_last (i + 1) x2 t rest
    else none :: draw_go measure cfg num_max idx_last (i + 1) x t rest

/-- Draw x-positions of all slots of the line on screen in fixed
placement mode at video time `t`, starting from the cached
`line_start_x_on_canvas` (src lines 668–736). -/
def seg_draw_xs (measure : Str → ℤ → ℤ) (cfg : LayoutCfg) (start_x : ℚ)
    (slots : List (Option CharData)) (t : ℚ) : List (Option ℚ) :=
  draw_go measure cfg slots.length (idx_of_last_some slots) 0 start_x t slots

/-! Render driver control flow (src lines 483–510 and 738–755),
for claim C9. -/

/-- Externally visible actions of the generation driver, in order. -/
inductive RunAction where
  | encoder_opened
  | encoder_released
  | frame_written
  | aborted
  | completed
deriving DecidableEq, Repr

/-- Control-flow skeleton of the driver (src lines 483–510, 738–755):
the `cv2.VideoWriter` is opened first (src lines 487–494; abort if no
codec opens), the font is probed only *after* that (src line 496;
on failure the writer is released and the run aborts), and only then
does the frame loop write frames. -/
def render_driver (encoder_opens font_ok : Bool) (frames : ℕ) : List RunAction :=
  if encoder_opens then
    RunAction.encoder_opened ::
      (if font_ok then
        List.replicate frames RunAction.frame_written ++
          [RunAction.encoder_released, RunAction.completed]
      else [RunAction.encoder_released, RunAction.aborted])
  else [RunAction.aborted]

/-! Concrete instances shared by the compositor claims. -/

/-- A concrete measurement function: every character is 10 px wide at
every font size. -/
def measure10 : Str → ℤ → ℤ := fun s _ => 10 * s.length

/-- A concrete configuration: base size 60, spacing 10, centered at
anchor 0, no pitch/velocity scaling, padding threshold 240 ticks. -/
def cfg0 : LayoutCfg := ⟨60, 10, align_center, 0, 0, 0, 60, 64, 240, 1/10, 8, 300⟩

/-- A progressive segment `---ab` bound to a note at 0 s lasting 2 s
(100 ticks), as the scheduler would build it. -/
def da0 : CharData := mk_char_data ['-', '-', '-', 'a', 'b'] 0 0 ⟨0, 2, 100, 60, 64⟩

/-- A static segment `z` bound to a simultaneous note at 0 s lasting
2 s (100 ticks). -/
def db0 : CharData := mk_char_data ['z'] 0 1 ⟨0, 2, 100, 64, 64⟩

/-- Concrete compositor inputs: one lyric line `---ab/z` in fixed
placement mode, with the two `char` events of its segments. -/
def P0 : CompParams :=
  ⟨[[['-', '-', '-', 'a', 'b'], ['z']]], [TEvent.char 0 da0, TEvent.char 0 db0], true, cfg0⟩

lemma process_events_append (measure : Str → ℤ → ℤ) (P : CompParams)
    (l1 l2 : List TEvent) (st : CompState) :
    process_events measure P st (l1 ++ l2)
      = process_events measure P (process_events measure P st l1) l2 := by
  induction l1 generalizing st with
  | nil => rfl
  | cons e es ih =>
    simp only [List.cons_append, process_events]
    exact ih _

/-- The invariant claim C4 needs of the cache: every stored entry is
the pure per-line fixed layout computed from the timeline. -/
def CacheInv (measure : Str → ℤ → ℤ) (P : CompParams) (st : CompState) : Prop :=
  ∀ l w, cache_get l st.fixed_layout_cache = some w
    → w = fixed_layout_for_line measure P l

lemma process_char_cache (st : CompState) (d : CharData) :
    (process_char st d).fixed_layout_cache = st.fixed_layout_cache := by
  unfold process_char
  split <;> rfl

lemma cache_inv_step (measure : Str → ℤ → ℤ) (P : CompParams) (st : CompState)
    (e : TEvent) (h : CacheInv measure P st) :
    CacheInv measure P (process_event measure P st e) := by
  cases e with
  | char t d =>
    intro l w hw
    rw [process_event, process_char_cache] at hw
    exact h l w hw
  | clear_line t li =>
    intro l w hw
    rw [process_event] at hw
    unfold process_clear at hw
    split at hw
    · dsimp only at hw
      split at hw
      · dsimp only at hw
        unfold cache_get at hw
        split at hw
        · rename_i heq
          subst heq
          have hval := (Option.some.inj hw).symm
          rw [hval]
          unfold fixed_layout_for_line
          split
          · rfl
          · rename_i hne
            rw [not_not] at hne
            rw [List.isEmpty_iff] at hne
            rw [hne]
        · exact h l w hw
      · exact h l w hw
    · exact h l w hw

lemma cache_persist_step (measure : Str → ℤ → ℤ) (P : CompParams) (st : CompState)
    (e : TEvent) (li : ℕ) (v : LineLayout)
    (h : cache_get li st.fixed_layout_cache = some v) :
    cache_get li (process_event measure P st e).fixed_layout_cache = some v := by
  cases e with
  | char t d => rw [process_event, process_char_cache]; exact h
  | clear_line t target =>
    rw [process_event]
    unfold process_clear
    split
    · dsimp only
      split
      · rename_i hcond
        dsimp only
        unfold cache_get
        split
        · rename_i heq
          subst heq
          rw [h] at hcond
          exact absurd hcond.2.1 (by simp)
        · exact h
      · exact h
    · exact h

lemma cache_inv_run (measure : Str → ℤ → ℤ) (P : CompParams) (st : CompState)
    (evs : List TEvent) (h : CacheInv measure P st) :
    CacheInv measure P (process_events measure P st evs) := by
  induction evs generalizing st with
  | nil => exact h
  | cons e es ih => exact ih _ (cache_inv_step measure P st e h)

lemma cache_persist_run (measure : Str → ℤ → ℤ) (P : CompParams) (st : CompState)
    (evs : List TEvent) (li : ℕ) (v : LineLayout)
    (h : cache_get li st.fixed_layout_cache = some v) :
    cache_get li (process_events measure P st evs).fixed_layout_cache = some v := by
  induction evs generalizing st with
  | nil => exact h
  | cons e es ih => exact ih _ (cache_persist_step measure P st e li v h)

/-- C4 amended (cache half): any value the fixed-layout cache holds
for a line after processing any prefix of events from the initial
state equals the pure fixed layout of that line — computed from every
segment's *final* revealed text in the timeline — and the entry stays
unchanged for the whole rest of the run, so the cached `start_x` and
`total_width` are invariant across all frames.  (The footnote the
counterexample forces: invariance holds for the cached line layout,
not for each segment's drawn position.) -/
theorem fixed_layout_cached_once (measure : Str → ℤ → ℤ) (P : CompParams)
    (evs evs' : List TEvent) (li : ℕ) (v : LineLayout)
    (h : cache_get li
      (process_events measure P init_comp_state evs).fixed_layout_cache = some v) :
    v = fixed_layout_for_line measure P li ∧
    cache_get li (process_events measure P init_comp_state
      (evs ++ evs')).fixed_layout_cache = some v := by
  have hinv0 : CacheInv measure P init_comp_state := by
    intro l w hw
    simp [init_comp_state, cache_get] at hw
  constructor
  · exact cache_inv_run measure P init_comp_state evs hinv0 li v h
  · rw [process_events_append]
    exact cache_persist_run measure P _ evs' li v h

/-- Witness for the C4 cache theorem: after the opening `clear_line`,
the cache holds line 0's pure fixed layout, and it is still there
after the line's `char` events fire. -/
theorem fixed_layout_cached_once_witness :
    cache_get 0 (process_events measure10 P0 init_comp_state
      ([TEvent.clear_line 0 0] ++ [TEvent.char 0 da0, TEvent.char 0 db0])).fixed_layout_cache
      = some (fixed_layout_for_line measure10 P0 0) := by
  have hne : segs_for_layout [TEvent.char 0 da0, TEvent.char 0 db0] 0 ≠ [] := by
    simp [segs_for_layout, char_datas, da0, db0, mk_char_data,
      List.filterMap_cons, List.insertionSort, List.orderedInsert]
  have hrun : process_events measure10 P0 init_comp_state [TEvent.clear_line 0 0]
      = ⟨0, List.replicate 2 none, [(0, fixed_layout_for_line measure10 P0 0)]⟩ := by
    simp [process_events, process_event, process_clear, init_comp_state,
      cache_get, P0, hne, fixed_layout_for_line, num_segments_for_line]
  have h : cache_get 0 (process_events measure10 P0 init_comp_state
      [TEvent.clear_line 0 0]).fixed_layout_cache
      = some (fixed_layout_for_line measure10 P0 0) := by
    rw [hrun]
    simp [cache_get]
  exact (fixed_layout_cached_once measure10 P0 [TEvent.clear_line 0 0]
    [TEvent.char 0 da0, TEvent.char 0 db0] 0 _ h).2

/-- C10: over any processed event sequence the on-screen line index
never decreases, and a `clear_line` whose target is not beyond the
line already on screen is ignored: the whole state — active line,
slot array and layout cache — is returned unchanged. -/
theorem clear_line_monotone_ignored (measure : Str → ℤ → ℤ) (P : CompParams)
    (st : CompState) (evs : List TEvent) (target : ℕ) :
    st.current_line_idx_on_screen
      ≤ (process_events measure P st evs).current_line_idx_on_screen ∧
    ((target : ℤ) ≤ st.current_line_idx_on_screen →
      st.current_line_idx_on_screen ≠ -1 →
      process_clear measure P st target = st) := by
  constructor
  · induction evs generalizing st with
    | nil => exact le_refl _
    | cons e es ih =>
      refine le_trans ?_ (ih (process_event measure P st e))
      cases e with
      | char t d =>
        rw [process_event]
        unfold process_char
        split <;> exact le_refl _
      | clear_line t li =>
        rw [process_event]
        unfold process_clear
        split
        · rename_i hg
          have hle : st.current_line_idx_on_screen ≤ (li : ℤ) := by
            rcases hg with hg | hg
            · exact le_of_lt hg
            · rw [hg]
              exact le_trans (by norm_num) (Int.natCast_nonneg li)
          dsimp only
          split <;> exact hle
        · exact le_refl _
  · intro h1 h2
    unfold process_clear
    rw [if_neg]
    intro hor
    rcases hor with hor | hor
    · exact absurd h1 (not_le.mpr hor)
    · exact h2 hor

/-- Witness for C10: with line 5 on screen, a `clear_line` targeting
line 3 leaves the state untouched, and processing it does not lower
the on-screen index. -/
theorem clear_line_monotone_ignored_witness :
    ((5 : ℤ) ≤ (process_events measure10 P0 ⟨5, [], []⟩
      [TEvent.clear_line 0 3]).current_line_idx_on_screen) ∧
    process_clear measure10 P0 ⟨5, [], []⟩ 3 = ⟨5, [], []⟩ := by
  have h := clear_line_monotone_ignored measure10 P0 ⟨5, [], []⟩
    [TEvent.clear_line 0 3] 3
  exact ⟨h.1, h.2 (by norm_num) (by norm_num)⟩

lemma parse_progressive_ab :
    parse_dynamic_segment ['-', '-', '-', 'a', 'b'] =
      ⟨['-', '-', '-', 'a', 'b'], true, [⟨['a'], 0, 1/2⟩, ⟨['a', 'b'], 1/2, 1⟩],
        ['a', 'b']⟩ := by
  have e1 : py_strip ['-', '-', '-', 'a', 'b'] = ['-', '-', '-', 'a', 'b'] := by decide
  have ed : (List.drop 3 ['-', '-', '-', 'a', 'b'] : Str) = ['a', 'b'] := by decide
  rw [parse_progressive_eq _ (by decide) (by decide) (by decide) (by decide) (by decide)]
  congr 1
  · simp only [e1, ed, List.length_cons, List.length_nil]
    norm_num [List.range_succ]
    norm_num [normalize_timings]
    norm_num [norm_pass1, List.isEmpty_cons, List.isEmpty_nil, max_def]
    norm_num [set_first_zero]
    norm_num [norm_pass3, norm_pass3_go, max_def]
    norm_num [set_last_one]

lemma parse_static_z :
    parse_dynamic_segment ['z'] = ⟨['z'], false, [⟨['z'], 0, 1⟩], ['z']⟩ := by
  have es : py_strip ['z'] = ['z'] := by decide
  simp only [parse_dynamic_segment]
  rw [if_neg (by decide), if_neg (by decide), if_neg (by decide), if_neg (by decide)]
  rw [es]
  congr 1

/-- C4 counterexample: in fixed placement mode, with the cached line
start fixed at `0`, the second segment of the line `---ab/z` is drawn
at `x = 20` while the first (progressive) segment shows `a`, but at
`x = 30` one revealed character later — the drawing cursor advances by
the widths of the *currently visible* glyphs, so a later segment's
drawn position shifts as an earlier progressive segment reveals. -/
theorem fixed_mode_draw_positions_shift_cex :
    seg_draw_xs measure10 cfg0 0 [some da0, some db0] 0 = [some 0, some 20] ∧
    seg_draw_xs measure10 cfg0 0 [some da0, some db0] 1 = [some 0, some 30] ∧
    (20 : ℚ) ≠ 30 := by
  have hv0 : visible_text da0 0 = ['a'] := by
    simp only [da0, mk_char_data, parse_progressive_ab]
    simp only [visible_text]
    norm_num
    norm_num [find_sub, max_def, min_def]
  have hv1 : visible_text da0 1 = ['a', 'b'] := by
    simp only [da0, mk_char_data, parse_progressive_ab]
    simp only [visible_text]
    norm_num
    norm_num [find_sub, max_def, min_def]
  have hvz : ∀ t : ℚ, visible_text db0 t = ['z'] := by
    intro t
    simp only [db0, mk_char_data, parse_static_z]
    simp [visible_text]
  have hpad : segment_trailing_padding cfg0 100 = 0 := by
    norm_num [segment_trailing_padding, cfg0, py_int]
  have hdt : da0.duration_ticks = 100 := by simp [da0, mk_char_data]
  have hcs : cfg0.char_spacing = 10 := rfl
  refine ⟨?_, ?_, by norm_num⟩
  · norm_num [seg_draw_xs, draw_go, idx_of_last_some, List.range_succ, hv0,
      hvz, hdt, hpad, measure10, hcs]
  · norm_num [seg_draw_xs, draw_go, idx_of_last_some, List.range_succ, hv1,
      hvz, hdt, hpad, measure10, hcs]

/-- C9 counterexample: with a working encoder and an unusable font,
the failing run's action trace is
`[encoder_opened, encoder_released, aborted]` — in particular the
encoder *was* opened before the abort, because the font probe
(src line 496) runs only after the `VideoWriter` is opened
(src lines 487–494). -/
theorem font_after_encoder_cex :
    render_driver true false 0 =
      [RunAction.encoder_opened, RunAction.encoder_released, RunAction.aborted] ∧
    RunAction.encoder_opened ∈ render_driver true false 0 := by
  decide

/-- C9 amended: an unusable font makes the run fail before any frame
is written, but not before the encoder is opened: when the encoder
opens, the trace is exactly open–release–abort. -/
theorem font_failure_aborts_after_open (encoder_opens : Bool) (frames : ℕ) :
    RunAction.aborted ∈ render_driver encoder_opens false frames ∧
    RunAction.frame_written ∉ render_driver encoder_opens false frames ∧
    render_driver true false frames =
      [RunAction.encoder_opened, RunAction.encoder_released, RunAction.aborted] := by
  cases encoder_opens <;> simp [render_driver]

end MidT2M
